import Mathlib

/-!
# Verification of the proxy-form reactive store

Shallow embedding of the core of the `proxy-form` repository
(`src/context.ts`, `src/helpers.ts`, `src/hooks.ts`, `src/types.ts`) and
proofs about it.  Values are modelled by an inductive `JValue` mirroring the
JavaScript values the library manipulates; paths are lists of `FieldName`
(`string | number`, cf. `types.ts`); JavaScript member access that can throw
a `TypeError` is modelled in the `Except` monad.  The registration trie
(`FieldsMap` over listener arrays) and the change-field ledger (`FieldsMap`
over `new Map()` values) are modelled by dedicated tree types whose
operations follow the source line by line; where the diff engine of the
external `immer` dependency is needed it is modelled from the specification
(see `diffTop`).
-/

namespace ProxyForm

/-- A path segment, `FieldName = string | symbol | number` in `types.ts`.
Symbols never flow into the operations verified here, so the model keeps the
string and number cases. -/
inductive FieldName where
  | str (s : String)
  | num (n : Nat)
deriving DecidableEq, Repr

/-- JavaScript `String(key)` on a path segment, as used by `FieldsMap`
(`map.get(String(key))`, `map.set(String(key), value)` in `helpers.ts`). -/
def FieldName.canon : FieldName → String
  | .str s => s
  | .num n => toString n

/-- A path into the form state, `FieldPath` in `types.ts`. -/
abbrev FieldPath := List FieldName

/-- The JavaScript values stored in a form snapshot.  `nan` models the
floating-point `NaN` (the only number that is not `===` to itself); `fn`
models a function value by an identifier; `exotic` models a non-plain,
non-array object (a `Date`, class instance, ...). -/
inductive JValue where
  | null
  | undef
  | bool (b : Bool)
  | num (n : Int)
  | nan
  | str (s : String)
  | arr (elems : List JValue)
  | obj (fields : List (String × JValue))
  | fn (id : Nat)
  | exotic (id : Nat)
deriving Repr

/-- `value === undefined || value === null` (the guard inside `getIn`). -/
def JValue.nullish : JValue → Bool
  | JValue.undef => true
  | .null => true
  | _ => false

/-- `Array.isArray(value)`. -/
def JValue.isArr : JValue → Bool
  | .arr _ => true
  | _ => false

/-- `isPlainObject(value)` from `helpers.ts`: true exactly for plain objects
(prototype `null` or `Object.prototype`); arrays, functions and exotic
objects are not plain. -/
def JValue.isPlainObj : JValue → Bool
  | .obj _ => true
  | _ => false

/-- `isFunction(value)` from `helpers.ts`. -/
def JValue.isFn : JValue → Bool
  | .fn _ => true
  | _ => false

mutual

/-- Structural equality of JavaScript values with `NaN` equal to itself:
this is `Object.is`-style comparison extended pointwise to trees, the
equality notion under which the external diff engine decides that a write
changed nothing (immer checks `is(base, value)` on every assignment). -/
def jsIsDeep : JValue → JValue → Bool
  | .null, .null => true
  | JValue.undef, JValue.undef => true
  | .bool a, .bool b => a == b
  | .num a, .num b => a == b
  | .nan, .nan => true
  | .str a, .str b => a == b
  | .arr xs, .arr ys => jsIsDeepList xs ys
  | .obj fs, .obj gs => jsIsDeepFields fs gs
  | .fn a, .fn b => a == b
  | .exotic a, .exotic b => a == b
  | _, _ => false

def jsIsDeepList : List JValue → List JValue → Bool
  | [], [] => true
  | x :: xs, y :: ys => jsIsDeep x y && jsIsDeepList xs ys
  | _, _ => false

def jsIsDeepFields : List (String × JValue) → List (String × JValue) → Bool
  | [], [] => true
  | (k, x) :: xs, (l, y) :: ys => k == l && jsIsDeep x y && jsIsDeepFields xs ys
  | _, _ => false

end

/-- Strict equality `===` on values as it distinguishes `NaN`: `NaN === NaN`
is `false`.  Only the `NaN` refinement matters for the claims; on other
values the model uses structural comparison. -/
def jsTripleEq (a b : JValue) : Bool :=
  match a, b with
  | .nan, _ => false
  | _, .nan => false
  | _, _ => jsIsDeep a b

/-- Does a string spell a canonical array index (the decimal numeral of a
natural number)?  JavaScript arrays answer indexed reads for exactly these
property strings. -/
def canonIndex : FieldName → Option Nat
  | .num n => some n
  | .str s =>
      match s.toNat? with
      | some n => if toString n = s then some n else none
      | none => none

/-- Property lookup on a value that is known to be neither `undefined` nor
`null` (`obj[key]` in JavaScript): plain objects answer their own keys,
arrays answer index keys and `length`, anything else yields `undefined`.
Prototype-inherited properties are not modelled. -/
def jsGetNN (v : JValue) (k : FieldName) : JValue :=
  match v with
  | .obj fs => (fs.lookup k.canon).getD JValue.undef
  | .arr xs =>
      match canonIndex k with
      | some i => (xs.get? i).getD JValue.undef
      | none => if k.canon = "length" then .num xs.length else JValue.undef
  | _ => JValue.undef

/-- Property lookup as JavaScript performs it: reading a member of
`undefined` or `null` throws a `TypeError`. -/
def jsMember (v : JValue) (k : FieldName) : Except String JValue :=
  if v.nullish then .error "TypeError" else .ok (jsGetNN v k)

/-- `getIn` from `helpers.ts` (with the default object accessor): reduce
over the path, yielding `undefined` as soon as the intermediate result is
`undefined` or `null`.  The guard makes the reduction total, which the
theorem for claim C9 makes precise via `getInE`. -/
def getIn (obj : JValue) (path : FieldPath) : JValue :=
  path.foldl (fun result key => if result.nullish then JValue.undef else jsGetNN result key) obj

/-- `getIn` re-expressed in the `Except` monad with every member access
modelled as possibly throwing (`jsMember`); used to state that `getIn`
never raises. -/
def getInE (obj : JValue) (path : FieldPath) : Except String JValue :=
  path.foldlM (fun result key => if result.nullish then pure JValue.undef else jsMember result key) obj

/-- An immer patch (`types.ts` imports `Patch` from immer):
`{ op: add | replace | remove, path, value? }`.  A `remove` patch carries no
value; the model stores `undef` there. -/
inductive PatchOp where
  | add
  | replace
  | remove
deriving DecidableEq, Repr

structure Patch where
  op : PatchOp
  path : FieldPath
  value : JValue
deriving Repr

/-!
## The change-field ledger

`ProviderContext.changedFields : FieldsMap<Map<FieldName, any>>`.  The value
stored for a marked path is always `new Map()` (an empty JavaScript `Map`),
so every node of this `FieldsMap` instance — interior node or stored value —
is a `Map`, and all walks stay inside `Map.get`.  The model therefore uses a
single forest type: an entry `key ↦ children` is a `Map` entry whose value
is the (possibly empty) `Map` of its children.  Keys are the canonical
strings `String(key)` that `FieldsMap.get`/`set` produce; `delete` passes
its final segment raw, which the model keeps visible (`ldelete`).
-/

inductive LForest where
  | nil
  | cons (key : String) (child : LForest) (rest : LForest)
deriving DecidableEq, Repr

/-- `Map.get` on a ledger node. -/
def LForest.lookup : LForest → String → Option LForest
  | .nil, _ => none
  | .cons k c rest, key => if k = key then some c else rest.lookup key

/-- `Map.set` on a ledger node: replace the entry in place if the key is
present, otherwise append (JavaScript `Map` preserves insertion order). -/
def LForest.put : LForest → String → LForest → LForest
  | .nil, key, v => .cons key v .nil
  | .cons k c rest, key, v =>
      if k = key then .cons k v rest else .cons k c (rest.put key v)

/-- `Map.delete key` on a ledger node (keys of a `Map` are unique). -/
def LForest.drop : LForest → String → LForest
  | .nil, _ => .nil
  | .cons k c rest, key => if k = key then rest.drop key else .cons k c (rest.drop key)

/-- `FieldsMap.get` for the ledger: `getIn(this.fields, path, (map, key) =>
map.get(String(key)))`.  A missing key yields `undefined`, and the `getIn`
guard keeps every later step at `undefined`. -/
def lget : LForest → FieldPath → Option LForest
  | f, [] => some f
  | f, k :: rest => (f.lookup k.canon).bind (fun ch => lget ch rest)

/-- `FieldsMap.has`: `this.get(path) !== undefined`. -/
def lhas (f : LForest) (p : FieldPath) : Bool := (lget f p).isSome

/-- `FieldsMap.set(path, new Map())` as `update` invokes it for an
`add`/`replace` patch: `setIn` walks `path.slice(0, -1)` with canonical
keys, creating `new Map()` for missing links, then stores a fresh empty
`Map` at the final canonical key (replacing whatever was there). -/
def lset : LForest → FieldPath → LForest
  | f, [] => f
  | f, [k] => f.put k.canon .nil
  | f, k :: rest =>
      match f.lookup k.canon with
      | some ch => f.put k.canon (lset ch rest)
      | none => f.put k.canon (lset .nil rest)

/-- `FieldsMap.delete` from `helpers.ts` (first version):
`reference = this.get(path.slice(0, -1)); if (isMap(reference))
reference.delete(path[path.length - 1])`.  The walk to the parent uses
canonical string keys, but the final `Map.delete` receives the raw segment:
a numeric segment can never equal a stored string key
(SameValueZero), so the delete is a no-op for numeric final segments. -/
def ldelete : LForest → FieldPath → LForest
  | f, [] => f
  | f, [k] =>
      match k with
      | .str s => f.drop s
      | .num _ => f
  | f, k :: rest =>
      match f.lookup k.canon with
      | some ch => f.put k.canon (ldelete ch rest)
      | none => f

/-- The `changedFields` recording loop inside `ProviderContext.update`
(guarded by `options.validate`, default `true`): `add`/`replace` patches
mark their path, `remove` patches delete it; it runs only over the patch
list of the initiating `produceWithPatches` call. -/
def recordPatches (led : LForest) (patches : List Patch) : LForest :=
  patches.foldl
    (fun led p =>
      match p.op with
      | .add => lset led p.path
      | .replace => lset led p.path
      | .remove => ldelete led p.path)
    led

/-!
## The registration trie

`ProviderContext.registrations : FieldsMap<RegistrationUpdater[]>`
(`helpers.ts`, first version: `Fields<TValue> = Map<FieldName, Fields |
TValue>`).  A trie node is either a stored value — a listener array,
modelled as a list of callback identifiers — or a nested `Map` of children;
it is never both.  Walking a path *through* a listener array applies
`map.get` to an `Array`, which throws a `TypeError` in JavaScript; the
model returns `Except.error` there.  Keys are canonical strings.
-/

mutual

inductive RForest where
  | nil
  | cons (key : String) (node : RNode) (rest : RForest)

inductive RNode where
  | val (cbs : List Nat)
  | sub (children : RForest)

end

/-- `Map.get` on a registration node. -/
def RForest.find : RForest → String → Option RNode
  | .nil, _ => none
  | .cons k n rest, key => if k = key then some n else rest.find key

/-- `Map.set` on a registration node (replace in place or append). -/
def RForest.putR : RForest → String → RNode → RForest
  | .nil, key, v => .cons key v .nil
  | .cons k n rest, key, v =>
      if k = key then .cons k v rest else .cons k n (rest.putR key v)

/-- Insertion-ordered key list of a node, `Array.from(map.keys())`. -/
def RForest.keys : RForest → List String
  | .nil => []
  | .cons k _ rest => k :: rest.keys

/-- `FieldsMap.get` for registrations.  The empty path returns the root
`Map` itself (`path.reduce` with no steps).  Reaching a listener array with
path segments still to walk models `array.get(...)`, a `TypeError`. -/
def rget : RForest → FieldPath → Except Unit (Option RNode)
  | f, [] => .ok (some (.sub f))
  | f, k :: rest =>
      match f.find k.canon with
      | none => .ok none
      | some (.val cbs) => if rest.isEmpty then .ok (some (.val cbs)) else .error ()
      | some (.sub ch) => rget ch rest

/-- `FieldsMap.set` for registrations: `setIn` walks `path.slice(0, -1)`
with the `Map` accessors, creating `new Map()` for missing links, and
stores the listener array at the final canonical key.  Hitting a listener
array mid-walk throws (`array.get` / `array.set` are not functions). -/
def rset : RForest → FieldPath → List Nat → Except Unit RForest
  | f, [], _ => .ok f
  | f, [k], v => .ok (f.putR k.canon (.val v))
  | f, k :: k2 :: rest, v =>
      match f.find k.canon with
      | none => (rset .nil (k2 :: rest) v).map (fun sub => f.putR k.canon (.sub sub))
      | some (.val _) => .error ()
      | some (.sub ch) => (rset ch (k2 :: rest) v).map (fun sub => f.putR k.canon (.sub sub))

/-- Replace the listener array stored at a path that resolves to one
(functional image of mutating the aliased array in place, as
`fieldListeners.push(...)` / `.splice(...)` do). -/
def rreplaceVal : RForest → FieldPath → List Nat → RForest
  | f, [], _ => f
  | f, [k], v =>
      match f.find k.canon with
      | some (.val _) => f.putR k.canon (.val v)
      | _ => f
  | f, k :: k2 :: rest, v =>
      match f.find k.canon with
      | some (.sub ch) => f.putR k.canon (.sub (rreplaceVal ch (k2 :: rest) v))
      | _ => f

/-- One iteration of the `fieldPaths.forEach` loop in
`ProviderContext.register`: fetch the listener array, create it when the
path is unoccupied, and push the callback when an array is found. -/
def registerOne (f : RForest) (path : FieldPath) (cb : Nat) : Except Unit RForest := do
  match ← rget f path with
  | none => rset f path [cb]
  | some (.val cbs) => .ok (rreplaceVal f path (cbs ++ [cb]))
  | some (.sub _) => .ok f

/-- `ProviderContext.register(fieldPaths, onUpdate)` over all paths. -/
def register (f : RForest) (paths : List FieldPath) (cb : Nat) : Except Unit RForest :=
  paths.foldlM (fun f p => registerOne f p cb) f

/-- `fieldListeners.splice(fieldListeners.indexOf(onUpdate), 1)`: when the
callback is present, remove its first occurrence; when it is absent,
`indexOf` yields `-1` and `splice(-1, 1)` removes the **last** element of
the array (or nothing if the array is empty). -/
def spliceRemove (cbs : List Nat) (cb : Nat) : List Nat :=
  if cb ∈ cbs then cbs.erase cb else cbs.dropLast

/-- One iteration of the loop in the unsubscribe closure returned by
`ProviderContext.register`. -/
def unsubscribeOne (f : RForest) (path : FieldPath) (cb : Nat) : Except Unit RForest := do
  match ← rget f path with
  | some (.val cbs) => .ok (rreplaceVal f path (spliceRemove cbs cb))
  | _ => .ok f

/-- The unsubscribe closure returned by `ProviderContext.register`. -/
def unsubscribe (f : RForest) (paths : List FieldPath) (cb : Nat) : Except Unit RForest :=
  paths.foldlM (fun f p => unsubscribeOne f p cb) f

mutual

/-- Is a callback registered somewhere inside this node? -/
def nodeHas : RNode → Nat → Bool
  | .val cbs, c => cbs.contains c
  | .sub ch, c => forestHas ch c

def forestHas : RForest → Nat → Bool
  | .nil, _ => false
  | .cons _ n rest, c => nodeHas n c || forestHas rest c

end

mutual

/-- Nesting depth of a node (a listener array has depth 0). -/
def depthN : RNode → Nat
  | .val _ => 0
  | .sub ch => depthF ch + 1

def depthF : RForest → Nat
  | .nil => 0
  | .cons _ n rest => max (depthN n) (depthF rest)

end

mutual

/-- Well-formedness: every `Map` level has pairwise distinct keys
(JavaScript `Map` keys are unique). -/
def wfF : RForest → Bool
  | .nil => true
  | .cons k n rest => !(rest.keys.contains k) && wfN n && wfF rest

def wfN : RNode → Bool
  | .val _ => true
  | .sub ch => wfF ch

end

/-- Is a callback registered at the node this path resolves to, or at any
descendant of it? -/
def inSubtree (regs : RForest) (p : FieldPath) (c : Nat) : Bool :=
  match rget regs p with
  | .ok (some n) => nodeHas n c
  | _ => false

/-- `set.add(l)` on the JavaScript `Set` of listeners (insertion order,
no duplicates). -/
def addNew (s : List Nat) (c : Nat) : List Nat := if c ∈ s then s else s ++ [c]

/-- `listeners.forEach(l => set.add(l))`. -/
def pushAll (s : List Nat) (cbs : List Nat) : List Nat := cbs.foldl addNew s

/-- `Array.from(listeners.keys()).map(name => [...path, name])`. -/
def childPaths (p : FieldPath) (ch : RForest) : List FieldPath :=
  ch.keys.map (fun k => p ++ [FieldName.str k])

/-- `groupListeners` from `helpers.ts`: fold the candidate paths; a missing
node contributes nothing, a listener array is added to the set, and a `Map`
node recurses over all of its child paths.  The JavaScript function needs
no fuel — its recursion is bounded by the trie depth — so the model's fuel
parameter (one unit per processed path) is an artifact; exhausting it is an
error, and `groupListeners_sound` characterises every successful run. -/
def groupListeners (regs : RForest) : Nat → List FieldPath → List Nat → Except Unit (List Nat)
  | _, [], s => .ok s
  | 0, _ :: _, _ => .error ()
  | fuel + 1, p :: rest, s =>
      match rget regs p with
      | .error e => .error e
      | .ok none => groupListeners regs fuel rest s
      | .ok (some (.val cbs)) => groupListeners regs fuel rest (pushAll s cbs)
      | .ok (some (.sub ch)) =>
          match groupListeners regs fuel (childPaths p ch) s with
          | .error e => .error e
          | .ok s2 => groupListeners regs fuel rest s2

mutual

/-- Does a node contain at least one registered callback? -/
def nodeNonempty : RNode → Bool
  | .val cbs => !cbs.isEmpty
  | .sub ch => forestNonempty ch

def forestNonempty : RForest → Bool
  | .nil => false
  | .cons _ n rest => nodeNonempty n || forestNonempty rest

end

/-- The own property names of `Array.prototype` (ES2021), the set probed by
`Array.prototype.hasOwnProperty(key)` in `ProviderContext.trigger`. -/
def arrayProtoKeys : List String :=
  ["length", "constructor", "at", "concat", "copyWithin", "fill", "find",
   "findIndex", "findLast", "findLastIndex", "flat", "flatMap", "includes",
   "indexOf", "join", "keys", "entries", "values", "forEach", "filter",
   "map", "every", "some", "reduce", "reduceRight", "pop", "push",
   "reverse", "shift", "unshift", "slice", "sort", "splice", "lastIndexOf",
   "toLocaleString", "toString"]

/-- `Array.prototype.hasOwnProperty(key)`. -/
def isArrayProtoKey (s : String) : Bool := arrayProtoKeys.contains s

/-- `patch.path[patch.path.length - 1]`; on the empty path JavaScript reads
index `-1`, which is `undefined`, and a property key coerces to the string
`"undefined"`. -/
def lastSeg (p : FieldPath) : FieldName := (p.getLast?).getD (.str "undefined")

/-- One iteration of the `pendingPatches` loop in
`ProviderContext.trigger`: compute `referencePath = patch.path.slice(0,
-1)`, `reference = getIn(this.form, referencePath)` and `value =
reference[lastSegment]` (a throwing member access), then push the candidate
notification paths: the parent when the value is a container; the literal
patch path plus one synthetic path per array-prototype key registered under
the parent when the parent is an array; the literal patch path otherwise. -/
def candidateFor (form : JValue) (regs : RForest) (patch : Patch) :
    Except String (List FieldPath) :=
  let referencePath := patch.path.dropLast
  let reference := getIn form referencePath
  match jsMember reference (lastSeg patch.path) with
  | .error e => .error e
  | .ok value =>
      if value.isArr || value.isPlainObj then .ok [referencePath]
      else if reference.isArr then
        match rget regs referencePath with
        | .error _ => .error "TypeError"
        | .ok (some (.sub ch)) =>
            .ok (patch.path :: ch.keys.filterMap (fun k =>
              if isArrayProtoKey k then some (referencePath ++ [FieldName.str k]) else none))
        | .ok _ => .ok [patch.path]
      else .ok [patch.path]

/-- The candidate-path computation of `ProviderContext.trigger` over the
whole pending-patch queue, in order. -/
def triggerPaths (form : JValue) (regs : RForest) (pending : List Patch) :
    Except String (List FieldPath) :=
  pending.foldlM (fun acc patch => (candidateFor form regs patch).map (acc ++ ·)) []

/-- `ProviderContext.trigger`: candidate paths, then trie resolution, then
one invocation per collected listener; returns the identifiers of the
invoked callbacks in invocation order.  `fuel` feeds `groupListeners`. -/
def runTrigger (form : JValue) (regs : RForest) (pending : List Patch) (fuel : Nat) :
    Except String (List Nat) :=
  match triggerPaths form regs pending with
  | .error e => .error e
  | .ok paths =>
      match groupListeners regs fuel paths [] with
      | .error _ => .error "TypeError"
      | .ok invoked => .ok invoked

/-- The decision rule exactly as claim C1 states it: first, a parent that
resolves to an array-like container notifies the parent itself plus one
path per array-derived-method key under the parent having at least one
registered subscriber; otherwise a container value widens to the parent;
otherwise the literal patch path is notified. -/
def specC1CandidatesFor (form : JValue) (regs : RForest) (patch : Patch) : List FieldPath :=
  let parent := patch.path.dropLast
  let parentValue := getIn form parent
  if parentValue.isArr then
    parent :: (match rget regs parent with
      | .ok (some (.sub ch)) =>
          ch.keys.filterMap (fun k =>
            if isArrayProtoKey k && (match ch.find k with
                | some n => nodeNonempty n
                | none => false) then
              some (parent ++ [FieldName.str k])
            else none)
      | _ => [])
  else
    let value := getIn form patch.path
    if value.isArr || value.isPlainObj then [parent] else [patch.path]

/-- The candidate rule the code actually implements, stated over path
resolution (`getIn`) rather than over the loop-local variables: (1) when
the value at the patch path is a container, only the parent is notified
(this branch wins even when the parent is an array); (2) otherwise, when
the parent is an array, the literal patch path is notified together with
one path per key registered under the parent that is an own property of
`Array.prototype` (whether or not its subtree still holds a subscriber);
(3) otherwise the literal patch path is notified. -/
def amendedC1CandidatesFor (form : JValue) (regs : RForest) (patch : Patch) : List FieldPath :=
  let parent := patch.path.dropLast
  let value := getIn form patch.path
  if value.isArr || value.isPlainObj then [parent]
  else if (getIn form parent).isArr then
    patch.path :: (match rget regs parent with
      | .ok (some (.sub ch)) =>
          ch.keys.filterMap (fun k =>
            if isArrayProtoKey k then some (parent ++ [FieldName.str k]) else none)
      | _ => [])
  else [patch.path]

/-- The literal-leaf contribution exactly as claim C2 states it: the
callbacks registered at that exact node (and nothing deeper). -/
def exactCbsAt (regs : RForest) (p : FieldPath) : List Nat :=
  match rget regs p with
  | .ok (some (.val cbs)) => cbs
  | _ => []

/-- `FieldsMap.delete` on the registration instance: resolve the parent
with canonical keys, and when it is a `Map`, delete the **raw** final
segment from it. -/
def RForest.dropRaw (f : RForest) (k : FieldName) : RForest :=
  match k with
  | .str s =>
      match f with
      | .nil => .nil
      | .cons k2 n rest => if k2 = s then rest.dropRaw (FieldName.str s) else .cons k2 n (rest.dropRaw (FieldName.str s))
  | .num _ => f

def rdeleteGo : RForest → FieldPath → FieldName → Except Unit RForest
  | f, [], last => .ok (f.dropRaw last)
  | f, k :: rest, last =>
      match f.find k.canon with
      | none => .ok f
      | some (.val _) => if rest.isEmpty then .ok f else .error ()
      | some (.sub ch) => (rdeleteGo ch rest last).map (fun ch2 => f.putR k.canon (.sub ch2))

/-- `FieldsMap.delete(path)`: `reference = this.get(path.slice(0, -1));
if (isMap(reference)) reference.delete(path[path.length - 1])`. -/
def rdelete (f : RForest) (path : FieldPath) : Except Unit RForest :=
  match path.getLast? with
  | none => .ok f
  | some last => rdeleteGo f path.dropLast last

/-- `FieldsMap.has` on the registration instance (Boolean observer). -/
def rhasB (f : RForest) (p : FieldPath) : Bool :=
  match rget f p with
  | .ok (some _) => true
  | _ => false

/-- Canonicalise every segment of a path to its decimal-string form. -/
def canonPath (p : FieldPath) : FieldPath := p.map (fun k => FieldName.str k.canon)

/-- Canonicalise every segment except the last (the raw segment
`FieldsMap.delete` hands to `Map.delete`). -/
def canonButLast (p : FieldPath) : FieldPath :=
  match p.getLast? with
  | none => []
  | some last => canonPath p.dropLast ++ [last]

/-- Does `FieldsMap.get` return (rather than throw) on this path? -/
def rgetOk (regs : RForest) (p : FieldPath) : Bool :=
  match rget regs p with
  | .ok _ => true
  | .error _ => false

/-- Does the candidate-path computation of `trigger` return (rather than
throw) on this pending queue? -/
def triggerOk (form : JValue) (regs : RForest) (pending : List Patch) : Bool :=
  match triggerPaths form regs pending with
  | .ok _ => true
  | .error _ => false

/-!
## The edit primitive and the cascade runner

`ProviderContext.update` drives the external `immer`
`produceWithPatches`.  That engine is not part of this repository, so its
diff is modelled from the specification (§4.1): `diffTop` compares two
snapshots and emits the add/replace/remove patches whose application turns
one into the other, using `Object.is`-style equality (so a `NaN`-over-`NaN`
write is no change).  The granularity is the changed top-level keys of a
plain object — sufficient for every edit exercised by the theorems below,
which mutate top-level fields exactly as the cited spec scenarios do.
-/

/-- Modelled from the spec: the patch list `produceWithPatches` (immer,
external to the repository) computes for an edit, at top-level-key
granularity; empty exactly when the mutation made no net change under
`Object.is`-style equality. -/
def diffTop (base next : JValue) : List Patch :=
  if jsIsDeep base next then []
  else
    match base, next with
    | .obj bs, .obj ns =>
        (ns.filterMap (fun kv =>
          match bs.lookup kv.1 with
          | some w => if jsIsDeep w kv.2 then none
                      else some ⟨.replace, [FieldName.str kv.1], kv.2⟩
          | none => some ⟨.add, [FieldName.str kv.1], kv.2⟩)) ++
        (bs.filterMap (fun kv =>
          if (ns.lookup kv.1).isSome then none
          else some ⟨.remove, [FieldName.str kv.1], JValue.undef⟩))
    | _, next => [⟨.replace, [], next⟩]

/-- Modelled from the spec: `produceWithPatches(form, mut)` returns the new
snapshot together with the diff; when the mutator makes no net change the
base snapshot itself is returned (reference identity in JavaScript,
equality in the model). -/
def produceWP (form : JValue) (mutator : JValue → JValue) : JValue × List Patch :=
  let next := mutator form
  let ps := diffTop form next
  (if ps.isEmpty then form else next, ps)

/-- A global form listener (`FormListener` in `types.ts`): it receives the
shared mutable draft, one patch, and the ledger membership predicate, and
yields the draft after its edits (an in-place mutation or a returned
replacement). -/
def GListener : Type := JValue → Patch → (FieldPath → Bool) → JValue

/-- One cascade pass: `prevPatches.forEach(patch =>
this.formListeners.forEach(listener => listener({form, patch, changed})))`
inside a single `produceWithPatches` call — every invocation sees the draft
as left by the previous one; the second component counts listener
invocations. -/
def runPass (listeners : List GListener) (changed : FieldPath → Bool)
    (prevPatches : List Patch) (form : JValue) : JValue × Nat :=
  prevPatches.foldl
    (fun acc patch =>
      listeners.foldl (fun acc2 l => (l acc2.1 patch changed, acc2.2 + 1)) acc)
    (form, 0)

/-- The `accumulate` recursion inside `ProviderContext.update`: while the
frontier is non-empty, append it to the accumulated history, run one pass
over the shared draft, diff the pass, and recurse on the diff.  The
JavaScript recursion has no intrinsic bound (spec §7, cascade
non-termination), which the model exposes as a fuel parameter; `error`
models the non-terminating case. -/
def accumulate (listeners : List GListener) (changed : FieldPath → Bool) :
    Nat → JValue → List Patch → List Patch → Nat →
      Except String (JValue × List Patch × Nat)
  | _, form, [], allPatches, calls => .ok (form, allPatches, calls)
  | 0, _, _ :: _, _, _ => .error "cascade fuel exhausted"
  | fuel + 1, form, p :: prev, allPatches, calls =>
      let prevPatches := p :: prev
      let allPatches2 := allPatches ++ prevPatches
      let pass := runPass listeners changed prevPatches form
      let newPatches := diffTop form pass.1
      let newForm := if newPatches.isEmpty then form else pass.1
      accumulate listeners changed fuel newForm newPatches allPatches2 (calls + pass.2)

/-- The mutable state of a `ProviderContext` instance. -/
structure PCState where
  form : JValue
  changedFields : LForest
  registrations : RForest
  pendingPatches : List Patch
  formListeners : List GListener

/-- The observable outcome of one `ProviderContext.update` call. -/
structure UpdateOut where
  form : JValue
  changedFields : LForest
  pendingPatches : List Patch
  patches : List Patch
  listenerCalls : Nat
  invoked : List Nat
deriving Repr

/-- `ProviderContext.update(updateFn, options)`: run the initiating
`produceWithPatches`; when `options.validate` (default `true`) record its
patches — and only its patches — into `changedFields`; run the cascade to
a fixpoint with the ledger predicate `changed`; commit the final snapshot;
queue the accumulated patches; when `options.notify` (default `true`) run
`trigger` immediately. -/
def update (st : PCState) (mutator : JValue → JValue) (validate notify : Bool)
    (fuel : Nat) : Except String UpdateOut :=
  let initial := produceWP st.form mutator
  let led := if validate then recordPatches st.changedFields initial.2 else st.changedFields
  let changed := fun p => lhas led p
  match accumulate st.formListeners changed fuel initial.1 initial.2 [] 0 with
  | .error e => .error e
  | .ok (newForm, patches, calls) =>
      let pending := st.pendingPatches ++ patches
      if notify then
        match runTrigger newForm st.registrations pending fuel with
        | .error e => .error e
        | .ok invoked => .ok ⟨newForm, led, [], patches, calls, invoked⟩
      else .ok ⟨newForm, led, pending, patches, calls, []⟩

/-!
## The access-tracking proxy

`createProxy(identifier, form, prevPath, onAccess)` from `helpers.ts`.  The
`get` trap is the observable behaviour the claims speak about; the model
returns the classified result together with the list of paths reported to
`onAccess` by this read.  The write-style traps (`set`, `defineProperty`,
`deleteProperty`, `setPrototypeOf`) all throw unconditionally.
-/

/-- A property read on the proxy: either the hidden caller-supplied
identifier symbol or an ordinary key. -/
inductive ProxyProp where
  | ident
  | key (k : FieldName)

/-- What the `get` trap hands back. -/
inductive GetResult where
  | identInfo (parent : JValue) (basePath : FieldPath)
  | nestedView (path : FieldPath)
  | boundFn (id : Nat)
  | raw (v : JValue)

/-- The `get` trap of `createProxy`: the identifier key answers
`[parent, prevPath]` without recording; a container value produces a nested
proxy for the extended path without recording; a function records the
extended path and is returned bound to the receiver; anything else records
the extended path and is returned raw.  `parent[prop]` throws when `parent`
is nullish. -/
def proxyGet (form : JValue) (prevPath : FieldPath) (p : ProxyProp) :
    Except String (GetResult × List FieldPath) :=
  let parent := getIn form prevPath
  match p with
  | .ident => .ok (.identInfo parent prevPath, [])
  | .key k =>
      match jsMember parent k with
      | .error e => .error e
      | .ok value =>
          if value.isArr || value.isPlainObj then .ok (.nestedView (prevPath ++ [k]), [])
          else
            match value with
            | .fn id => .ok (.boundFn id, [prevPath ++ [k]])
            | value => .ok (.raw value, [prevPath ++ [k]])

/-- Scenario helper (caller-side code, not part of the repository): set a
top-level key of a plain object, as a mutator or listener writing to the
draft does. -/
def setAssoc : List (String × JValue) → String → JValue → List (String × JValue)
  | [], key, x => [(key, x)]
  | (k, w) :: rest, key, x =>
      if k = key then (k, x) :: rest else (k, w) :: setAssoc rest key x

/-- Scenario helper (caller-side code): top-level field write. -/
def setField (v : JValue) (key : String) (x : JValue) : JValue :=
  match v with
  | .obj fs => .obj (setAssoc fs key x)
  | v => v

/-- The cascade-fixpoint scenario listener (caller-side code, spec §8): it
corrects field `b` exactly twice — pushing it from 0 to 1, then 1 to 2 —
and then stabilises. -/
def c3Listener : GListener := fun f _ _ =>
  match getIn f [FieldName.str "b"] with
  | .num k => if k < 2 then setField f "b" (.num (k + 1)) else f
  | _ => f

def c3Form : JValue := .obj [("a", .num 0), ("b", .num 0)]

def c3State : PCState := ⟨c3Form, .nil, .nil, [], [c3Listener]⟩

def c3Mutator : JValue → JValue := fun f => setField f "a" (.num 3)

/-- A snapshot holding a `NaN` field, for the no-op edge case of claim C4. -/
def c4State : PCState := ⟨.obj [("x", .nan)], .nil, .nil, [], []⟩

/-- A mutator that writes `NaN` over the existing `NaN` (no net change
under `Object.is`, though `NaN !== NaN`). -/
def c4Mutator : JValue → JValue := fun f => setField f "x" .nan

/-- The write-style operations a proxy view can receive. -/
inductive WriteOp where
  | setProp (k : FieldName) (v : JValue)
  | defineProp (k : FieldName)
  | deleteProp (k : FieldName)
  | setProto

/-- The `set`, `defineProperty`, `deleteProperty` and `setPrototypeOf`
traps of `createProxy`: every one of them throws unconditionally. -/
def proxyWrite (_form : JValue) (_prevPath : FieldPath) (_op : WriteOp) :
    Except String Unit :=
  .error "Direct modifications on form data are not allowed! Use `updateForm`!"

mutual

theorem jsIsDeep_refl : ∀ a, jsIsDeep a a = true
  | .null => rfl
  | JValue.undef => rfl
  | .bool _ => by simp [jsIsDeep]
  | .num _ => by simp [jsIsDeep]
  | .nan => rfl
  | .str _ => by simp [jsIsDeep]
  | .arr xs => by simpa [jsIsDeep] using jsIsDeepList_refl xs
  | .obj fs => by simpa [jsIsDeep] using jsIsDeepFields_refl fs
  | .fn _ => by simp [jsIsDeep]
  | .exotic _ => by simp [jsIsDeep]

theorem jsIsDeepList_refl : ∀ xs, jsIsDeepList xs xs = true
  | [] => rfl
  | x :: xs => by simp [jsIsDeepList, jsIsDeep_refl x, jsIsDeepList_refl xs]

theorem jsIsDeepFields_refl : ∀ xs, jsIsDeepFields xs xs = true
  | [] => rfl
  | (k, x) :: xs => by simp [jsIsDeepFields, jsIsDeep_refl x, jsIsDeepFields_refl xs]

end

theorem getIn_nil (obj : JValue) : getIn obj [] = obj := rfl

theorem getIn_cons (obj : JValue) (k : FieldName) (p : FieldPath) :
    getIn obj (k :: p) = getIn (if obj.nullish then JValue.undef else jsGetNN obj k) p := rfl

theorem getIn_append (obj : JValue) (p q : FieldPath) :
    getIn obj (p ++ q) = getIn (getIn obj p) q := by
  induction p generalizing obj with
  | nil => rfl
  | cons k p ih => simp [getIn_cons, ih]

theorem getIn_undef (p : FieldPath) : getIn JValue.undef p = JValue.undef := by
  induction p with
  | nil => rfl
  | cons k p ih => simpa [getIn_cons, JValue.nullish] using ih

theorem lget_append (f : LForest) (p q : FieldPath) :
    lget f (p ++ q) = (lget f p).bind (fun ch => lget ch q) := by
  induction p generalizing f with
  | nil => simp [lget]
  | cons k p ih =>
      simp only [List.cons_append, lget]
      cases f.lookup k.canon with
      | none => simp
      | some ch => simp [ih]

theorem lookup_put_self (f : LForest) (key : String) (v : LForest) :
    (f.put key v).lookup key = some v := by
  induction f with
  | nil => simp [LForest.put, LForest.lookup]
  | cons k c rest ihc ihr =>
      by_cases h : k = key <;> simp [LForest.put, LForest.lookup, h, ihr]

theorem lookup_put_other (f : LForest) (key key' : String) (v : LForest) (h : key ≠ key') :
    (f.put key v).lookup key' = f.lookup key' := by
  induction f with
  | nil => simp [LForest.put, LForest.lookup, h]
  | cons k c rest ihc ihr =>
      by_cases hk : k = key
      · subst hk
        simp [LForest.put, LForest.lookup, h, Ne.symm h]
      · simp only [LForest.put, hk, if_false]
        by_cases hk2 : k = key' <;> simp [LForest.lookup, hk2, ihr]

theorem lookup_drop_self (f : LForest) (key : String) :
    (f.drop key).lookup key = none := by
  induction f with
  | nil => simp [LForest.drop, LForest.lookup]
  | cons k c rest ihc ihr =>
      by_cases h : k = key <;> simp [LForest.drop, LForest.lookup, h, ihr]

/-- Marking a non-empty path makes it present. -/
theorem lhas_lset_self (f : LForest) (p : FieldPath) (hp : p ≠ []) :
    lhas (lset f p) p = true := by
  induction p generalizing f with
  | nil => exact absurd rfl hp
  | cons k rest ih =>
      cases rest with
      | nil => simp [lset, lhas, lget, lookup_put_self]
      | cons k2 rest2 =>
          cases h : f.lookup k.canon with
          | none =>
              have := ih (f := LForest.nil) (by simp)
              simpa [lset, h, lhas, lget, lookup_put_self] using this
          | some ch =>
              have := ih (f := ch) (by simp)
              simpa [lset, h, lhas, lget, lookup_put_self] using this

/-- Deleting a path whose final segment is a string removes the node. -/
theorem lhas_ldelete_self (f : LForest) (p : FieldPath) (s : String)
    (hlast : p.getLast? = some (.str s)) :
    lhas (ldelete f p) p = false := by
  induction p generalizing f with
  | nil => simp at hlast
  | cons k rest ih =>
      cases rest with
      | nil =>
          simp only [List.getLast?_singleton, Option.some_inj] at hlast
          subst hlast
          simp [ldelete, lhas, lget, lookup_drop_self, FieldName.canon]
      | cons k2 rest2 =>
          have hlast2 : (k2 :: rest2).getLast? = some (.str s) := by
            rw [List.getLast?_cons_cons] at hlast
            exact hlast
          cases h : f.lookup k.canon with
          | none => simp [ldelete, h, lhas, lget]
          | some ch =>
              have := ih (f := ch) hlast2
              simpa [ldelete, h, lhas, lget, lookup_put_self] using this

/-- Deleting a path whose final segment is a string also removes every
strict descendant. -/
theorem lhas_ldelete_descendant (f : LForest) (p q : FieldPath) (s : String)
    (hlast : p.getLast? = some (.str s)) (_hq : q ≠ []) :
    lhas (ldelete f p) (p ++ q) = false := by
  have hself := lhas_ldelete_self f p s hlast
  simp only [lhas, lget_append] at hself ⊢
  cases hget : lget (ldelete f p) p with
  | none => simp
  | some ch => simp [hget] at hself

theorem mem_addNew (s : List Nat) (c c2 : Nat) : c ∈ addNew s c2 ↔ c ∈ s ∨ c = c2 := by
  by_cases h : c2 ∈ s
  · simp only [addNew, if_pos h]
    constructor
    · exact Or.inl
    · rintro (hc | rfl) <;> assumption
  · simp [addNew, if_neg h]

theorem nodup_addNew (s : List Nat) (c : Nat) (h : s.Nodup) : (addNew s c).Nodup := by
  by_cases hc : c ∈ s
  · simpa [addNew, hc] using h
  · rw [addNew, if_neg hc]
    exact List.Nodup.append h (List.nodup_singleton c) (by simpa using hc)

theorem mem_pushAll (cbs : List Nat) (s : List Nat) (c : Nat) :
    c ∈ pushAll s cbs ↔ c ∈ s ∨ c ∈ cbs := by
  induction cbs generalizing s with
  | nil => simp [pushAll]
  | cons c2 cbs ih =>
      simp only [pushAll, List.foldl_cons] at ih ⊢
      rw [ih, mem_addNew, List.mem_cons]
      tauto

theorem nodup_pushAll (cbs s : List Nat) (h : s.Nodup) : (pushAll s cbs).Nodup := by
  induction cbs generalizing s with
  | nil => exact h
  | cons c2 cbs ih => exact ih _ (nodup_addNew _ _ h)

theorem rget_single (ch : RForest) (k : String) :
    rget ch [FieldName.str k] = .ok (ch.find k) := by
  cases h : ch.find (FieldName.canon (FieldName.str k)) with
  | none => simp [rget, FieldName.canon] at h ⊢; simp [h]
  | some n =>
      cases n with
      | val cbs => simp [rget, FieldName.canon] at h ⊢; simp [h, List.isEmpty]
      | sub ch2 => simp [rget, FieldName.canon] at h ⊢; simp [h, rget]

theorem rget_sub_append (f : RForest) (p q : FieldPath) (ch : RForest)
    (h : rget f p = .ok (some (.sub ch))) : rget f (p ++ q) = rget ch q := by
  induction p generalizing f with
  | nil =>
      simp only [rget, Except.ok.injEq, Option.some.injEq, RNode.sub.injEq] at h
      subst h; rfl
  | cons k p ih =>
      simp only [List.cons_append, rget] at h ⊢
      cases hf : f.find k.canon with
      | none => simp [hf] at h
      | some n =>
          cases n with
          | val cbs =>
              simp only [hf] at h
              rcases hp : p.isEmpty <;> simp [hp] at h
          | sub ch2 => simp only [hf] at h ⊢; exact ih ch2 h

theorem find_wf : ∀ (f : RForest) (key : String) (n : RNode), wfF f = true →
    f.find key = some n → wfN n = true
  | .nil, key, n, _, h => by simp [RForest.find] at h
  | .cons k nd rest, key, n, hwf, h => by
      simp only [wfF, Bool.and_eq_true] at hwf
      by_cases hk : k = key
      · subst hk
        simp only [RForest.find, if_pos rfl, eq_self_iff_true, if_true, Option.some.injEq] at h
        subst h; exact hwf.1.2
      · simp only [RForest.find, hk, if_false] at h
        exact find_wf rest key n hwf.2 h

theorem rget_wf (f : RForest) (p : FieldPath) (ch : RForest) (hwf : wfF f = true)
    (h : rget f p = .ok (some (.sub ch))) : wfF ch = true := by
  induction p generalizing f with
  | nil =>
      simp only [rget, Except.ok.injEq, Option.some.injEq, RNode.sub.injEq] at h
      subst h; exact hwf
  | cons k p ih =>
      simp only [rget] at h
      cases hf : f.find k.canon with
      | none => simp [hf] at h
      | some n =>
          cases n with
          | val cbs =>
              simp only [hf] at h
              rcases hp : p.isEmpty <;> simp [hp] at h
          | sub ch2 =>
              simp only [hf] at h
              have : wfN (.sub ch2) = true := find_wf f k.canon _ hwf hf
              exact ih ch2 (by simpa [wfN] using this) h

/-- With unique keys at every level, a callback is somewhere inside a `Map`
node exactly when it is inside the entry of one of the node's keys. -/
theorem forestHas_iff_keys : ∀ (ch : RForest) (c : Nat), wfF ch = true →
    (forestHas ch c = true ↔
      ∃ k ∈ ch.keys, ∃ n, ch.find k = some n ∧ nodeHas n c = true)
  | .nil, c, _ => by simp [forestHas, RForest.keys]
  | .cons k nd rest, c, hwf => by
      simp only [wfF, Bool.and_eq_true] at hwf
      obtain ⟨⟨hk, hwn⟩, hwr⟩ := hwf
      have ihr := forestHas_iff_keys rest c hwr
      have hknot : k ∉ rest.keys := by simpa using hk
      simp only [forestHas, Bool.or_eq_true, RForest.keys, List.mem_cons]
      constructor
      · rintro (h | h)
        · exact ⟨k, Or.inl rfl, nd, by simp [RForest.find], h⟩
        · obtain ⟨k2, hk2, n, hfind, hn⟩ := ihr.mp h
          have hne : k ≠ k2 := by rintro rfl; exact hknot hk2
          exact ⟨k2, Or.inr hk2, n, by simpa [RForest.find, hne] using hfind, hn⟩
      · rintro ⟨k2, hk2, n, hfind, hn⟩
        by_cases hke : k = k2
        · subst hke
          simp only [RForest.find, if_pos rfl, eq_self_iff_true, if_true, Option.some.injEq] at hfind
          subst hfind; exact Or.inl hn
        · rcases hk2 with rfl | hk2
          · exact absurd rfl hke
          · simp only [RForest.find, hke, if_false] at hfind
            exact Or.inr (ihr.mpr ⟨k2, hk2, n, hfind, hn⟩)

/-- Characterisation of every successful `groupListeners` run (the
JavaScript original always returns, its recursion being bounded by the trie
depth; in the model a run that returns is one given enough fuel): the
result extends the incoming set exactly by the callbacks registered at a
candidate path or at any descendant of one, and it stays duplicate-free. -/
theorem groupListeners_sound :
    ∀ (fuel : Nat) (regs : RForest) (paths : List FieldPath) (s l : List Nat),
      wfF regs = true →
      groupListeners regs fuel paths s = .ok l →
      (s.Nodup → l.Nodup) ∧
      (∀ c, c ∈ l ↔ c ∈ s ∨ ∃ p ∈ paths, inSubtree regs p c = true) := by
  intro fuel
  induction fuel with
  | zero =>
      intro regs paths s l hwf h
      cases paths with
      | nil =>
          simp only [groupListeners, Except.ok.injEq] at h
          subst h
          exact ⟨id, by simp⟩
      | cons p rest => simp [groupListeners] at h
  | succ fuel IH =>
      intro regs paths s l hwf h
      cases paths with
      | nil =>
          simp only [groupListeners, Except.ok.injEq] at h
          subst h
          exact ⟨id, by simp⟩
      | cons p rest =>
          simp only [groupListeners] at h
          cases hr : rget regs p with
          | error e => rw [hr] at h; cases h
          | ok r =>
              rw [hr] at h
              cases r with
              | none =>
                  obtain ⟨hnd, hmem⟩ := IH regs rest s l hwf h
                  refine ⟨hnd, fun c => ?_⟩
                  have hp : inSubtree regs p c = false := by simp [inSubtree, hr]
                  rw [hmem c]
                  simp [hp]
              | some n =>
                  cases n with
                  | val cbs =>
                      obtain ⟨hnd, hmem⟩ := IH regs rest (pushAll s cbs) l hwf h
                      refine ⟨fun hs => hnd (nodup_pushAll cbs s hs), fun c => ?_⟩
                      have hpc : inSubtree regs p c = cbs.contains c := by
                        simp [inSubtree, hr, nodeHas]
                      rw [hmem c, mem_pushAll]
                      constructor
                      · rintro ((h2 | h2) | ⟨q, hq, h2⟩)
                        · exact Or.inl h2
                        · exact Or.inr ⟨p, List.mem_cons_self p rest,
                            by rw [hpc]; simpa using h2⟩
                        · exact Or.inr ⟨q, List.mem_cons_of_mem p hq, h2⟩
                      · rintro (h2 | ⟨q, hq, h2⟩)
                        · exact Or.inl (Or.inl h2)
                        · rcases List.mem_cons.mp hq with rfl | hq2
                          · rw [hpc] at h2
                            exact Or.inl (Or.inr (by simpa using h2))
                          · exact Or.inr ⟨q, hq2, h2⟩
                  | sub ch =>
                      have h2 : (match groupListeners regs fuel (childPaths p ch) s with
                          | .error e => (.error e : Except Unit (List Nat))
                          | .ok s2 => groupListeners regs fuel rest s2) = .ok l := h
                      cases hin : groupListeners regs fuel (childPaths p ch) s with
                      | error e => rw [hin] at h2; cases h2
                      | ok s2 =>
                          rw [hin] at h2
                          have h := h2
                          have hwch : wfF ch = true := rget_wf regs p ch hwf hr
                          obtain ⟨hnd1, hmem1⟩ :=
                            IH regs (childPaths p ch) s s2 hwf hin
                          obtain ⟨hnd, hmem⟩ := IH regs rest s2 l hwf h
                          refine ⟨fun hs => hnd (hnd1 hs), fun c => ?_⟩
                          have hsub : (∃ q ∈ childPaths p ch, inSubtree regs q c = true) ↔
                              forestHas ch c = true := by
                            rw [forestHas_iff_keys ch c hwch]
                            constructor
                            · rintro ⟨q, hq, h2⟩
                              simp only [childPaths, List.mem_map] at hq
                              obtain ⟨k, hk, rfl⟩ := hq
                              rw [inSubtree, rget_sub_append regs p [FieldName.str k] ch hr,
                                rget_single] at h2
                              cases hfind : ch.find k with
                              | none => rw [hfind] at h2; simp at h2
                              | some n2 =>
                                  rw [hfind] at h2
                                  exact ⟨k, hk, n2, hfind, h2⟩
                            · rintro ⟨k, hk, n2, hfind, hn⟩
                              refine ⟨p ++ [FieldName.str k], ?_, ?_⟩
                              · simp only [childPaths, List.mem_map]
                                exact ⟨k, hk, rfl⟩
                              · rw [inSubtree, rget_sub_append regs p [FieldName.str k] ch hr,
                                  rget_single, hfind]
                                exact hn
                          have hp : inSubtree regs p c = forestHas ch c := by
                            simp [inSubtree, hr, nodeHas]
                          rw [hmem c]
                          constructor
                          · rintro (h2 | ⟨q, hq, h2⟩)
                            · rcases (hmem1 c).mp h2 with h2 | h2
                              · exact Or.inl h2
                              · exact Or.inr ⟨p, List.mem_cons_self p rest,
                                  by rw [hp]; exact hsub.mp h2⟩
                            · exact Or.inr ⟨q, List.mem_cons_of_mem p hq, h2⟩
                          · rintro (h2 | ⟨q, hq, h2⟩)
                            · exact Or.inl ((hmem1 c).mpr (Or.inl h2))
                            · rcases List.mem_cons.mp hq with rfl | hq2
                              · rw [hp] at h2
                                exact Or.inl ((hmem1 c).mpr (Or.inr (hsub.mpr h2)))
                              · exact Or.inr ⟨q, hq2, h2⟩

theorem diffTop_self (a : JValue) : diffTop a a = [] := by
  simp [diffTop, jsIsDeep_refl]

theorem getIn_snoc (form : JValue) (p : FieldPath) (k : FieldName)
    (hnn : (getIn form p).nullish = false) :
    getIn form (p ++ [k]) = jsGetNN (getIn form p) k := by
  rw [getIn_append, getIn_cons, getIn_nil]
  simp [hnn]

theorem getIn_last (form : JValue) (p : FieldPath) (hp : p ≠ [])
    (hnn : (getIn form p.dropLast).nullish = false) :
    getIn form p = jsGetNN (getIn form p.dropLast) (lastSeg p) := by
  have hlast : lastSeg p = p.getLast hp := by
    simp [lastSeg, List.getLast?_eq_getLast p hp]
  conv_lhs => rw [← List.dropLast_append_getLast hp]
  rw [← hlast] at *
  exact getIn_snoc form p.dropLast (lastSeg p) hnn

theorem accumulate_nilPatches (L : List GListener) (ch : FieldPath → Bool)
    (fuel : Nat) (f : JValue) (all : List Patch) (calls : Nat) :
    accumulate L ch fuel f [] all calls = .ok (f, all, calls) := by
  cases fuel <;> rfl

theorem groupListeners_nilPaths (regs : RForest) (fuel : Nat) (s : List Nat) :
    groupListeners regs fuel [] s = .ok s := by
  cases fuel <;> rfl

theorem put_self : ∀ (f : LForest) (key : String) (v : LForest),
    f.lookup key = some v → f.put key v = f
  | .nil, key, v, h => by simp [LForest.lookup] at h
  | .cons k c rest, key, v, h => by
      by_cases hk : k = key
      · subst hk
        simp only [LForest.lookup, if_pos rfl, eq_self_iff_true, if_true,
          Option.some.injEq] at h
        subst h
        simp [LForest.put]
      · simp only [LForest.lookup, hk, if_false] at h
        simp [LForest.put, hk, put_self rest key v h]

theorem ldelete_num : ∀ (led : LForest) (p : FieldPath) (n : Nat),
    p.getLast? = some (.num n) → ldelete led p = led
  | led, [], n, h => by simp at h
  | led, [k], n, h => by
      simp only [List.getLast?_singleton, Option.some.injEq] at h
      subst h
      rfl
  | led, k :: k2 :: rest, n, h => by
      rw [List.getLast?_cons_cons] at h
      simp only [ldelete]
      cases hl : led.lookup k.canon with
      | none => rfl
      | some ch =>
          show led.put k.canon (ldelete ch (k2 :: rest)) = led
          rw [ldelete_num ch (k2 :: rest) n h, put_self led k.canon ch hl]

theorem runPass_calls (L : List GListener) (ch : FieldPath → Bool)
    (ps : List Patch) (f : JValue) :
    (runPass L ch ps f).2 = ps.length * L.length := by
  have inner : ∀ (patch : Patch) (acc : JValue × Nat),
      (L.foldl (fun acc2 l => (l acc2.1 patch ch, acc2.2 + 1)) acc).2 = acc.2 + L.length := by
    intro patch
    induction L with
    | nil => intro acc; simp
    | cons l L ih => intro acc; simp [ih, Nat.add_assoc, Nat.add_comm 1]
  suffices h : ∀ (ps : List Patch) (acc : JValue × Nat),
      (ps.foldl (fun acc patch =>
        L.foldl (fun acc2 l => (l acc2.1 patch ch, acc2.2 + 1)) acc) acc).2 =
        acc.2 + ps.length * L.length by
    simpa [runPass] using h ps (f, 0)
  intro ps
  induction ps with
  | nil => intro acc; simp
  | cons p ps ih =>
      intro acc
      simp only [List.foldl_cons, ih, inner p acc, List.length_cons]
      ring

theorem accumulate_patches :
    ∀ (fuel : Nat) (L : List GListener) (ch : FieldPath → Bool) (f : JValue)
      (prev all : List Patch) (calls : Nat) (f2 : JValue) (ps2 : List Patch) (c2 : Nat),
      accumulate L ch fuel f prev all calls = .ok (f2, ps2, c2) →
      ∃ t, ps2 = all ++ t ∧ t.take prev.length = prev := by
  intro fuel
  induction fuel with
  | zero =>
      intro L ch f prev all calls f2 ps2 c2 h
      cases prev with
      | nil =>
          simp only [accumulate, Except.ok.injEq, Prod.mk.injEq] at h
          exact ⟨[], by simp [h.2.1.symm], by simp⟩
      | cons p pr => simp [accumulate] at h
  | succ fuel ih =>
      intro L ch f prev all calls f2 ps2 c2 h
      cases prev with
      | nil =>
          simp only [accumulate, Except.ok.injEq, Prod.mk.injEq] at h
          exact ⟨[], by simp [h.2.1.symm], by simp⟩
      | cons p pr =>
          simp only [accumulate] at h
          obtain ⟨t2, ht2, _⟩ := ih L ch _ _ _ _ _ _ _ h
          refine ⟨(p :: pr) ++ t2, by simp [ht2], by simp [List.take_left]⟩

theorem triggerPaths_fold (form : JValue) (regs : RForest) (g : Patch → List FieldPath) :
    ∀ (pending : List Patch) (acc : List FieldPath),
      (∀ q ∈ pending, candidateFor form regs q = .ok (g q)) →
      pending.foldlM (fun acc patch => (candidateFor form regs patch).map (acc ++ ·)) acc =
        .ok (acc ++ pending.flatMap g) := by
  intro pending
  induction pending with
  | nil => intro acc _; simp; rfl
  | cons q rest ih =>
      intro acc hok
      have hq := hok q (List.mem_cons_self q rest)
      rw [List.foldlM_cons, hq]
      have := ih (acc ++ g q) (fun r hr => hok r (List.mem_cons_of_mem q hr))
      simpa [Except.map, List.append_assoc] using this

theorem canonPath_isEmpty (p : FieldPath) : (canonPath p).isEmpty = p.isEmpty := by
  cases p <;> rfl

theorem canon_str_canon (k : FieldName) : (FieldName.str k.canon).canon = k.canon := rfl

theorem canonPath_cons (k : FieldName) (rest : FieldPath) :
    canonPath (k :: rest) = FieldName.str k.canon :: canonPath rest := rfl

theorem rget_canon : ∀ (f : RForest) (p : FieldPath), rget f (canonPath p) = rget f p
  | f, [] => rfl
  | f, k :: rest => by
      rw [canonPath_cons]
      simp only [rget, canon_str_canon]
      cases hf : f.find k.canon with
      | none => rfl
      | some n =>
          cases n with
          | val cbs => rw [canonPath_isEmpty]
          | sub ch => exact rget_canon ch rest

theorem rset_canon : ∀ (f : RForest) (p : FieldPath) (v : List Nat),
    rset f (canonPath p) v = rset f p v
  | f, [], v => rfl
  | f, [k], v => rfl
  | f, k :: k2 :: rest, v => by
      rw [canonPath_cons, canonPath_cons]
      simp only [rset, canon_str_canon]
      rw [← canonPath_cons]
      cases hf : f.find k.canon with
      | none => rw [rset_canon RForest.nil (k2 :: rest) v]
      | some n =>
          cases n with
          | val cbs => rfl
          | sub ch =>
              show Except.map (fun sub => f.putR k.canon (RNode.sub sub))
                  (rset ch (canonPath (k2 :: rest)) v) = _
              rw [rset_canon ch (k2 :: rest) v]

theorem rdeleteGo_canon : ∀ (f : RForest) (p : FieldPath) (last : FieldName),
    rdeleteGo f (canonPath p) last = rdeleteGo f p last
  | f, [], last => rfl
  | f, k :: rest, last => by
      rw [canonPath_cons]
      simp only [rdeleteGo, canon_str_canon]
      cases hf : f.find k.canon with
      | none => rfl
      | some n =>
          cases n with
          | val cbs => rw [canonPath_isEmpty]
          | sub ch =>
              show Except.map (fun ch2 => f.putR k.canon (RNode.sub ch2))
                  (rdeleteGo ch (canonPath rest) last) = _
              rw [rdeleteGo_canon ch rest last]

theorem rdelete_canonButLast : ∀ (f : RForest) (p : FieldPath),
    rdelete f (canonButLast p) = rdelete f p := by
  intro f p
  cases p with
  | nil => rfl
  | cons k rest =>
      have hp : (k :: rest).getLast? = some ((k :: rest).getLast (by simp)) :=
        List.getLast?_eq_getLast _ _
      rw [canonButLast, hp]
      have h1 : (canonPath (k :: rest).dropLast ++ [(k :: rest).getLast (by simp)]).getLast? =
          some ((k :: rest).getLast (by simp)) := by
        simp
      have h2 : (canonPath (k :: rest).dropLast ++ [(k :: rest).getLast (by simp)]).dropLast =
          canonPath (k :: rest).dropLast := by
        simp
      rw [rdelete, rdelete, hp, h1, h2]
      exact rdeleteGo_canon f (k :: rest).dropLast _

/-- C1 counterexample: for the snapshot `{items: [1, 2]}` and the patch
`replace ["items", 0] 5` (an array-parent, scalar-value edit, no
registrations), the code emits the literal patch path `["items", 0]`,
whereas the spec's ordered rule — parent-is-array checked first, parent
notified — emits `["items"]`; the two candidate lists differ. -/
theorem c1_counterexample :
    triggerPaths (.obj [("items", .arr [.num 1, .num 2])]) .nil
        [⟨.replace, [.str "items", .num 0], .num 5⟩] =
      .ok [[FieldName.str "items", FieldName.num 0]] ∧
    specC1CandidatesFor (.obj [("items", .arr [.num 1, .num 2])]) .nil
        ⟨.replace, [.str "items", .num 0], .num 5⟩ = [[FieldName.str "items"]] ∧
    ([[FieldName.str "items", FieldName.num 0]] : List FieldPath) ≠
      [[FieldName.str "items"]] :=
  ⟨rfl, rfl, by decide⟩

/-- C1 (amended): for every pending patch with a non-empty path whose
parent resolves to a non-nullish value and whose parent lookup in the
registration trie does not throw, the notification resolver computes the
candidate paths by the corrected ordered rule `amendedC1CandidatesFor`:
container value at the patch path → parent only; otherwise array parent →
literal patch path plus one path per `Array.prototype` key registered under
the parent; otherwise the literal patch path.  The whole queue yields the
concatenation of the per-patch candidates, in order. -/
theorem c1_trigger_rule :
    (∀ (form : JValue) (regs : RForest) (patch : Patch),
      patch.path ≠ [] →
      (getIn form patch.path.dropLast).nullish = false →
      rgetOk regs patch.path.dropLast = true →
      candidateFor form regs patch = .ok (amendedC1CandidatesFor form regs patch)) ∧
    (∀ (form : JValue) (regs : RForest) (pending : List Patch),
      (∀ q ∈ pending, q.path ≠ [] ∧ (getIn form q.path.dropLast).nullish = false ∧
        rgetOk regs q.path.dropLast = true) →
      triggerPaths form regs pending =
        .ok (pending.flatMap (fun q => amendedC1CandidatesFor form regs q))) := by
  have hone : ∀ (form : JValue) (regs : RForest) (patch : Patch),
      patch.path ≠ [] →
      (getIn form patch.path.dropLast).nullish = false →
      rgetOk regs patch.path.dropLast = true →
      candidateFor form regs patch = .ok (amendedC1CandidatesFor form regs patch) := by
    intro form regs patch hp hnn hro
    have hval : getIn form patch.path =
        jsGetNN (getIn form patch.path.dropLast) (lastSeg patch.path) :=
      getIn_last form patch.path hp hnn
    simp only [candidateFor, amendedC1CandidatesFor, jsMember, hnn, Bool.false_eq_true,
      if_false, ← hval]
    by_cases hcont : ((getIn form patch.path).isArr || (getIn form patch.path).isPlainObj) = true
    · simp [hcont]
    · simp only [Bool.not_eq_true] at hcont
      simp only [hcont, Bool.false_eq_true, if_false]
      by_cases harr : (getIn form patch.path.dropLast).isArr = true
      · simp only [harr, if_true]
        cases hr : rget regs patch.path.dropLast with
        | error e => simp [rgetOk, hr] at hro
        | ok r =>
            cases r with
            | none => rfl
            | some n => cases n <;> rfl
      · simp only [Bool.not_eq_true] at harr
        simp [harr]
  refine ⟨hone, ?_⟩
  intro form regs pending hok
  exact triggerPaths_fold form regs _ pending []
    (fun q hq => hone form regs q (hok q hq).1 (hok q hq).2.1 (hok q hq).2.2)

/-- C1 witness: the amended rule applied to a concrete array edit with a
subscriber registered under the `map` key of `items`. -/
theorem c1_witness :
    candidateFor (.obj [("items", .arr [.num 4])])
        (RForest.cons "items" (.sub (.cons "map" (.val [3]) .nil)) .nil)
        ⟨.replace, [.str "items", .num 0], .num 9⟩ =
      .ok (amendedC1CandidatesFor (.obj [("items", .arr [.num 4])])
        (RForest.cons "items" (.sub (.cons "map" (.val [3]) .nil)) .nil)
        ⟨.replace, [.str "items", .num 0], .num 9⟩) :=
  c1_trigger_rule.1 (.obj [("items", .arr [.num 4])])
    (RForest.cons "items" (.sub (.cons "map" (.val [3]) .nil)) .nil)
    ⟨.replace, [.str "items", .num 0], .num 9⟩ (by decide) (by decide) (by decide)

/-- C2 counterexample: callback 7 is registered only at `["a","b","c"]`;
the patch `replace ["a","b"] 9` over `{a: {b: 2}}` is classified as a
literal leaf path (scalar value, non-array parent), yet trie resolution
descends and collects callback 7 — while the claim's literal-leaf rule
("exactly the callbacks registered at that exact node") collects nothing. -/
theorem c2_counterexample :
    candidateFor (.obj [("a", .obj [("b", .num 2)])])
        (RForest.cons "a" (.sub (.cons "b" (.sub (.cons "c" (.val [7]) .nil)) .nil)) .nil)
        ⟨.replace, [.str "a", .str "b"], .num 9⟩ = .ok [[FieldName.str "a", FieldName.str "b"]] ∧
    groupListeners
        (RForest.cons "a" (.sub (.cons "b" (.sub (.cons "c" (.val [7]) .nil)) .nil)) .nil)
        5 [[FieldName.str "a", FieldName.str "b"]] [] = .ok [7] ∧
    exactCbsAt
        (RForest.cons "a" (.sub (.cons "b" (.sub (.cons "c" (.val [7]) .nil)) .nil)) .nil)
        [FieldName.str "a", FieldName.str "b"] = [] ∧
    ([7] : List Nat) ≠ [] :=
  ⟨rfl, rfl, rfl, by decide⟩

/-- C2 (amended): whenever trie resolution returns (as the JavaScript
function always does, fuel being an artifact of the model), the collected
set contains a callback exactly when some candidate path resolves to a trie
node holding it or holding it at any descendant — a node stores either a
callback list or children, so a path whose node is a callback list
contributes exactly that list — and the result is duplicate-free, so each
callback is invoked once per resolver invocation. -/
theorem c2_trie_resolution :
    ∀ (fuel : Nat) (regs : RForest) (paths : List FieldPath) (l : List Nat),
      wfF regs = true →
      groupListeners regs fuel paths [] = .ok l →
      l.Nodup ∧ (∀ c, c ∈ l ↔ ∃ p ∈ paths, inSubtree regs p c = true) := by
  intro fuel regs paths l hwf h
  obtain ⟨hnd, hmem⟩ := groupListeners_sound fuel regs paths [] l hwf h
  exact ⟨hnd List.nodup_nil, fun c => by simpa using hmem c⟩

/-- C2 witness: the characterisation applied to the concrete registry of
the counterexample — the resulting callback set is duplicate-free. -/
theorem c2_witness :
    ([7] : List Nat).Nodup :=
  (c2_trie_resolution 5
    (RForest.cons "a" (.sub (.cons "b" (.sub (.cons "c" (.val [7]) .nil)) .nil)) .nil)
    [[FieldName.str "a", FieldName.str "b"]] [7] (by decide) rfl).1

/-- C3: the cascade runs the frontier to a fixpoint: (i) one pass invokes
every global listener once per frontier patch (`runPass` counts
`|frontier| * |listeners|` invocations, all sharing the draft); (ii) every
successful `accumulate` run returns the incoming history extended in order,
beginning with the current frontier; (iii) in the concrete
two-corrections scenario (`c3Listener` corrects `b` twice and stabilises),
one `update` call invokes the listener exactly three times, accumulates the
initiating patch followed by the two correction patches, and commits the
stabilised snapshot (`b = 2`). -/
theorem c3_cascade_fixpoint :
    (∀ (L : List GListener) (ch : FieldPath → Bool) (ps : List Patch) (f : JValue),
      (runPass L ch ps f).2 = ps.length * L.length) ∧
    (∀ (fuel : Nat) (L : List GListener) (ch : FieldPath → Bool) (f : JValue)
      (prev all : List Patch) (calls : Nat) (f2 : JValue) (ps2 : List Patch) (c2 : Nat),
      accumulate L ch fuel f prev all calls = .ok (f2, ps2, c2) →
      ps2.take all.length = all ∧ (ps2.drop all.length).take prev.length = prev) ∧
    (update c3State c3Mutator true true 10).map
        (fun o => (o.listenerCalls, o.patches, getIn o.form [FieldName.str "b"])) =
      .ok (3, [⟨.replace, [.str "a"], .num 3⟩, ⟨.replace, [.str "b"], .num 1⟩,
        ⟨.replace, [.str "b"], .num 2⟩], .num 2) := by
  refine ⟨runPass_calls, ?_, rfl⟩
  intro fuel L ch f prev all calls f2 ps2 c2 h
  obtain ⟨t, ht, htake⟩ := accumulate_patches fuel L ch f prev all calls f2 ps2 c2 h
  subst ht
  exact ⟨List.take_left all t, by simpa [List.drop_left] using htake⟩

/-- C3 witness: the history property applied to the concrete scenario run
(initiating patch `a := 3`, corrections `b := 1`, `b := 2`). -/
theorem c3_witness :
    (([⟨.replace, [.str "a"], .num 3⟩, ⟨.replace, [.str "b"], .num 1⟩,
        ⟨.replace, [.str "b"], .num 2⟩] : List Patch).take 0 = []) ∧
    ((([⟨.replace, [.str "a"], .num 3⟩, ⟨.replace, [.str "b"], .num 1⟩,
        ⟨.replace, [.str "b"], .num 2⟩] : List Patch).drop 0).take 1 =
      [⟨.replace, [.str "a"], .num 3⟩]) :=
  c3_cascade_fixpoint.2.1 10 [c3Listener] (fun _ => false)
    (.obj [("a", .num 3), ("b", .num 0)]) [⟨.replace, [.str "a"], .num 3⟩] [] 0
    (.obj [("a", .num 3), ("b", .num 2)])
    [⟨.replace, [.str "a"], .num 3⟩, ⟨.replace, [.str "b"], .num 1⟩,
      ⟨.replace, [.str "b"], .num 2⟩] 3 rfl

/-- C4: an edit whose mutator makes no net change (with `NaN`-over-`NaN`
counting as no change, per the `Object.is`-style equality of the diff)
yields an empty patch list, returns the snapshot itself, records nothing in
the ledger, invokes no global listener and no registered callback; `NaN`
is nevertheless not strictly equal to itself, so this is a genuine
relaxation beyond `===`. -/
theorem c4_noop_edit :
    (∀ (st : PCState) (mutator : JValue → JValue) (fuel : Nat),
      st.pendingPatches = [] →
      mutator st.form = st.form →
      update st mutator true true fuel =
        .ok ⟨st.form, st.changedFields, [], [], 0, []⟩) ∧
    jsTripleEq .nan .nan = false ∧ jsIsDeep .nan .nan = true := by
  refine ⟨?_, rfl, rfl⟩
  intro st mutator fuel hpend hmut
  have h1 : produceWP st.form mutator = (st.form, []) := by
    simp [produceWP, hmut, diffTop_self]
  simp only [update, h1, recordPatches, List.foldl_nil, if_true,
    accumulate_nilPatches, hpend, List.append_nil, runTrigger, triggerPaths,
    List.foldlM_nil,
    show (pure [] : Except String (List FieldPath)) = Except.ok [] from rfl,
    groupListeners_nilPaths]

/-- C4 witness: writing `NaN` over an existing `NaN` field is a no-op edit:
empty patch list, identical snapshot, zero invocations. -/
theorem c4_witness :
    update c4State c4Mutator true true 3 =
      .ok ⟨.obj [("x", .nan)], .nil, [], [], 0, []⟩ :=
  c4_noop_edit.1 c4State c4Mutator 3 rfl rfl

/-- C5: evaluation at the failing input.  Register callbacks 1 and 2 at
path `["a"]`, then run the unsubscribe closure of callback 1 twice: the
first call removes callback 1, but the second call — `indexOf` misses,
`splice(-1, 1)` strips the last element — removes callback 2, so the
closure is not idempotent and silently destroys another observer's
registration. -/
theorem c5_unsubscribe_eval :
    register RForest.nil [[FieldName.str "a"]] 1 = .ok (.cons "a" (.val [1]) .nil) ∧
    register (.cons "a" (.val [1]) .nil) [[FieldName.str "a"]] 2 =
      .ok (.cons "a" (.val [1, 2]) .nil) ∧
    unsubscribe (.cons "a" (.val [1, 2]) .nil) [[FieldName.str "a"]] 1 =
      .ok (.cons "a" (.val [2]) .nil) ∧
    unsubscribe (.cons "a" (.val [2]) .nil) [[FieldName.str "a"]] 1 =
      .ok (.cons "a" (.val []) .nil) :=
  ⟨rfl, rfl, rfl, rfl⟩

/-- C6 counterexample: after an `add` patch at `["items", 0]` (stored under
the canonical key `"0"`), a `remove` patch at the same numeric path leaves
the ledger entry present — `Map.delete(0)` cannot match the string key —
while the same removal with the string segment `"0"` clears it. -/
theorem c6_counterexample :
    lhas (recordPatches (recordPatches .nil [⟨.add, [.str "items", .num 0], .num 7⟩])
        [⟨.remove, [.str "items", .num 0], JValue.undef⟩]) [.str "items", .num 0] = true ∧
    lhas (recordPatches (recordPatches .nil [⟨.add, [.str "items", .num 0], .num 7⟩])
        [⟨.remove, [.str "items", .str "0"], JValue.undef⟩]) [.str "items", .num 0] = false :=
  ⟨rfl, rfl⟩

/-- C6 (amended): the ledger after any successful `update` is exactly the
old ledger with the *initiating* diff recorded — cascade passes never touch
it; an `add`/`replace` patch marks its path present; a `remove` patch whose
final segment is a string clears its path and every strict descendant; a
`remove` patch whose final segment is numeric leaves the ledger entirely
unchanged (`Map.delete` receives the raw segment while entries are keyed by
canonical strings). -/
theorem c6_ledger_scoping :
    (∀ (st : PCState) (mutator : JValue → JValue) (fuel : Nat) (out : UpdateOut),
      update st mutator true true fuel = .ok out →
      out.changedFields = recordPatches st.changedFields (diffTop st.form (mutator st.form))) ∧
    (∀ (led : LForest) (p : FieldPath), p ≠ [] → lhas (lset led p) p = true) ∧
    (∀ (led : LForest) (p q : FieldPath) (s : String),
      p.getLast? = some (.str s) → q ≠ [] →
      lhas (ldelete led p) p = false ∧ lhas (ldelete led p) (p ++ q) = false) ∧
    (∀ (led : LForest) (p : FieldPath) (n : Nat),
      p.getLast? = some (.num n) → ldelete led p = led) := by
  refine ⟨?_, lhas_lset_self, ?_, ldelete_num⟩
  · intro st mutator fuel out h
    simp only [update] at h
    split at h
    · exact Except.noConfusion h
    · simp only [if_true] at h
      split at h
      · exact Except.noConfusion h
      · simp only [Except.ok.injEq] at h
        subst h
        rfl
  · intro led p q s hlast hq
    exact ⟨lhas_ldelete_self led p s hlast, lhas_ldelete_descendant led p q s hlast hq⟩

/-- C6 witness: a numeric-final-segment removal leaves a concrete ledger
untouched. -/
theorem c6_witness :
    ldelete (LForest.cons "items" (.cons "1" .nil .nil) .nil)
        [FieldName.str "items", FieldName.num 1] =
      LForest.cons "items" (.cons "1" .nil .nil) .nil :=
  c6_ledger_scoping.2.2.2 (LForest.cons "items" (.cons "1" .nil .nil) .nil)
    [FieldName.str "items", FieldName.num 1] 1 (by decide)

/-- C7: every property read on an access-tracking view over `prevPath`
with a resolvable (non-nullish) parent is classified by the value at
`prevPath + key`: container → nested view, no access recorded; function →
recorded and returned bound; anything else → recorded and returned raw;
and the hidden identifier key yields the parent value and the base path
without recording any access. -/
theorem c7_proxy_get :
    (∀ (form : JValue) (prevPath : FieldPath) (k : FieldName),
      (getIn form prevPath).nullish = false →
      proxyGet form prevPath (.key k) =
        .ok (let v := getIn form (prevPath ++ [k])
             if v.isArr || v.isPlainObj then (GetResult.nestedView (prevPath ++ [k]), [])
             else match v with
               | .fn id => (GetResult.boundFn id, [prevPath ++ [k]])
               | v => (GetResult.raw v, [prevPath ++ [k]]))) ∧
    (∀ (form : JValue) (prevPath : FieldPath),
      proxyGet form prevPath .ident =
        .ok (.identInfo (getIn form prevPath) prevPath, [])) := by
  refine ⟨?_, fun form prevPath => rfl⟩
  intro form prevPath k hnn
  have hv : getIn form (prevPath ++ [k]) = jsGetNN (getIn form prevPath) k :=
    getIn_snoc form prevPath k hnn
  simp only [proxyGet, jsMember, hnn, Bool.false_eq_true, if_false, hv]
  cases hx : jsGetNN (getIn form prevPath) k <;> rfl

/-- C7 witness: reading a plain-object member produces a nested view for
the extended path and records no access. -/
theorem c7_witness :
    proxyGet (.obj [("user", .obj [("name", .str "x")])]) [] (.key (.str "user")) =
      .ok (.nestedView [FieldName.str "user"], []) :=
  c7_proxy_get.1 (.obj [("user", .obj [("name", .str "x")])]) [] (.str "user") (by decide)

/-- C8: every write-style operation on an access-tracking view — property
assignment, definition, deletion, and prototype mutation — throws the
"Direct modifications" error synchronously, for every wrapped value and
every property; none is ever silently accepted. -/
theorem c8_proxy_write_throws :
    ∀ (form : JValue) (prevPath : FieldPath) (op : WriteOp),
      proxyWrite form prevPath op =
        .error "Direct modifications on form data are not allowed! Use `updateForm`!" ∧
      ∀ u : Unit, proxyWrite form prevPath op ≠ .ok u :=
  fun _ _ _ => ⟨rfl, fun _ h => Except.noConfusion h⟩

/-- C9 counterexample: in the snapshot `{}` the parent path `["a"]` of the
pending patch `replace ["a","b"] 1` resolves to `undefined`, and the
notification resolver's member lookup `reference[lastSegment]` throws a
`TypeError` instead of yielding `undefined` silently. -/
theorem c9_counterexample :
    getIn (.obj []) [FieldName.str "a"] = JValue.undef ∧
    triggerPaths (.obj []) .nil [⟨.replace, [.str "a", .str "b"], .num 1⟩] =
      .error "TypeError" :=
  ⟨rfl, rfl⟩

/-- C9 (amended): the path-resolution utility `getIn` itself never raises —
it returns exactly its total guard-based result on every snapshot and
path — but the resolver's leaf lookup is only safe when each pending
patch's parent path resolves to a non-nullish value (and its registry
lookup does not throw); under those conditions the candidate-path
computation returns normally. -/
theorem c9_resolution_safety :
    (∀ (obj : JValue) (path : FieldPath), getInE obj path = .ok (getIn obj path)) ∧
    (∀ (form : JValue) (regs : RForest) (pending : List Patch),
      (∀ q ∈ pending, (getIn form q.path.dropLast).nullish = false ∧
        rgetOk regs q.path.dropLast = true) →
      triggerOk form regs pending = true) := by
  constructor
  · intro obj path
    induction path generalizing obj with
    | nil => rfl
    | cons k p ih =>
        rw [getInE, List.foldlM_cons, getIn_cons]
        cases hn : obj.nullish with
        | true =>
            simp only [hn, if_true]
            show getInE JValue.undef p = Except.ok (getIn JValue.undef p)
            exact ih JValue.undef
        | false =>
            simp only [hn, Bool.false_eq_true, if_false]
            have hjm : jsMember obj k = .ok (jsGetNN obj k) := by simp [jsMember, hn]
            rw [hjm]
            show getInE (jsGetNN obj k) p = Except.ok (getIn (jsGetNN obj k) p)
            exact ih (jsGetNN obj k)
  · intro form regs pending hok
    have hcand : ∀ q ∈ pending, ∃ w, candidateFor form regs q = .ok w := by
      intro q hq
      obtain ⟨hnn, hro⟩ := hok q hq
      simp only [candidateFor, jsMember, hnn, Bool.false_eq_true, if_false]
      by_cases hcont : ((jsGetNN (getIn form q.path.dropLast) (lastSeg q.path)).isArr ||
          (jsGetNN (getIn form q.path.dropLast) (lastSeg q.path)).isPlainObj) = true
      · exact ⟨_, by rw [if_pos hcont]⟩
      · rw [if_neg hcont]
        by_cases harr : (getIn form q.path.dropLast).isArr = true
        · rw [if_pos harr]
          cases hr : rget regs q.path.dropLast with
          | error e => simp [rgetOk, hr] at hro
          | ok r => cases r with
              | none => exact ⟨_, rfl⟩
              | some n => cases n <;> exact ⟨_, rfl⟩
        · rw [if_neg harr]
          exact ⟨_, rfl⟩
    have : ∀ (pend : List Patch) (acc : List FieldPath),
        (∀ q ∈ pend, ∃ w, candidateFor form regs q = .ok w) →
        ∃ l, pend.foldlM
          (fun acc patch => (candidateFor form regs patch).map (acc ++ ·)) acc = .ok l := by
      intro pend
      induction pend with
      | nil => intro acc _; exact ⟨acc, rfl⟩
      | cons q rest ih =>
          intro acc hall
          obtain ⟨w, hw⟩ := hall q (List.mem_cons_self q rest)
          rw [List.foldlM_cons, hw]
          exact ih (acc ++ w) (fun r hr => hall r (List.mem_cons_of_mem q hr))
    obtain ⟨l, hl⟩ := this pending [] hcand
    simp [triggerOk, triggerPaths, hl]

/-- C9 witness: a concrete well-formed pending queue resolves without
error. -/
theorem c9_witness :
    triggerOk (.obj [("a", .num 1)]) .nil [⟨.replace, [.str "a"], .num 2⟩] = true :=
  c9_resolution_safety.2 (.obj [("a", .num 1)]) .nil
    [⟨.replace, [.str "a"], .num 2⟩] (by decide)

/-- C10 counterexample: `set` stores a numeric segment under its canonical
string `"0"`, and `get`/`has` find it again through either spelling; but
`delete` with the numeric segment is a silent no-op — only the
string-spelled delete removes the node — so delete does not treat the two
spellings as the same node. -/
theorem c10_counterexample :
    rset RForest.nil [FieldName.num 0] [5] = .ok (.cons "0" (.val [5]) .nil) ∧
    rdelete (.cons "0" (.val [5]) .nil) [FieldName.num 0] =
      .ok (.cons "0" (.val [5]) .nil) ∧
    rdelete (.cons "0" (.val [5]) .nil) [FieldName.str "0"] = .ok .nil ∧
    rhasB (.cons "0" (.val [5]) .nil) [FieldName.num 0] = true ∧
    RForest.cons "0" (.val [5]) .nil ≠ .nil :=
  ⟨rfl, rfl, rfl, rfl, fun h => RForest.noConfusion h⟩

/-- C10 (amended): `get`, `set` and `has` canonicalise every path segment
to its decimal-string form — a numeric segment and its string form address
the same node, so string-keyed subscriptions match numeric patch paths and
vice versa — while `delete` canonicalises only the walk to the parent and
matches the final segment raw. -/
theorem c10_canonicalisation :
    (∀ (f : RForest) (p : FieldPath), rget f (canonPath p) = rget f p) ∧
    (∀ (f : RForest) (p : FieldPath) (v : List Nat), rset f (canonPath p) v = rset f p v) ∧
    (∀ (f : RForest) (p : FieldPath), rhasB f (canonPath p) = rhasB f p) ∧
    (∀ (f : RForest) (p : FieldPath), rdelete f (canonButLast p) = rdelete f p) := by
  refine ⟨rget_canon, rset_canon, ?_, rdelete_canonButLast⟩
  intro f p
  simp [rhasB, rget_canon]

end ProxyForm
